import Mathlib

/-!
Verification of the clipboard paste / asset reconciliation subsystem and the
notification utility functions of this repository.

The notification utilities (`get_list_in_batches`,
`filter_out_visible_notifications`, `filter_course_wide_preferences`) are
embedded directly from `openedx/core/djangoapps/notifications/utils.py`.
Python dictionaries are embedded as association lists; `dict.pop(key)` with no
default is embedded as a fallible operation returning `Except` whose error
value is the missing key (Python raises `KeyError(key)` there).

The clipboard paste flow (staging area, asset reconciler, paste orchestrator,
library-content re-sync) is not part of the excerpted sources — only its test
suite is — so those operations are modelled from the specification, as marked
on each definition.
-/

/- ### Batching utility (from source: get_list_in_batches) -/

/-- Shallow embedding of `get_list_in_batches` from
`openedx/core/djangoapps/notifications/utils.py`.  The Python generator runs
`for index in range(0, list_length, batch_size): yield input_list[index:index+batch_size]`.
For `batch_size > 0`, `range(0, n, batch_size)` enumerates the
`(n + batch_size - 1) / batch_size` indices `0, batch_size, 2*batch_size, ...`
below `n`, and the slice `input_list[i:i+batch_size]` is
`(input_list.drop i).take batch_size`.  For `batch_size = 0` Python `range`
raises `ValueError`; in that case Nat division by zero makes the index list
empty, so the model yields no batches. -/
def get_list_in_batches {α : Type} (input_list : List α) (batch_size : Nat) : List (List α) :=
  (List.range' 0 ((input_list.length + batch_size - 1) / batch_size) batch_size).map
    fun index => (input_list.drop index).take batch_size

/-- Helper reformulation of batching: repeatedly split off the first
`k` elements.  Used to reason about `get_list_in_batches` by induction. -/
def chunked {α : Type} (k : Nat) (hk : 0 < k) : List α → List (List α)
  | [] => []
  | a :: rest =>
    (a :: rest).take k :: chunked k hk ((a :: rest).drop k)
termination_by l => l.length
decreasing_by
  simp only [List.length_drop, List.length_cons]
  omega

/- ### Notification preference filtering (from source) -/

/-- Embedding of Python `d.pop(key)` on a dictionary with no default value:
if the key is present, remove its entry; otherwise raise `KeyError(key)`,
embedded as `.error key`.  A dictionary is an association list with at most
one entry per key, so removal filters the key out. -/
def popKey (d : List (String × Bool)) (key : String) : Except String (List (String × Bool)) :=
  match d.lookup key with
  | some _ => .ok (d.filter fun p => p.1 != key)
  | none => .error key

/-- Inner loop of `filter_out_visible_notifications`: for each
`(notification_type, is_visible_to)` pair, compute
`is_visible := any role of is_visible_to is among the user's forum roles`;
if visible, continue; otherwise pop `notification_type` from the app's
`notification_types` dictionary with an unguarded `pop` (which raises
`KeyError` when the key is absent). -/
def filterTypesForApp (user_forum_roles : List String) :
    List (String × List String) → List (String × Bool) → Except String (List (String × Bool))
  | [], d => .ok d
  | (notification_type, is_visible_to) :: rest, d =>
    if is_visible_to.any fun role => user_forum_roles.contains role then
      filterTypesForApp user_forum_roles rest d
    else
      match popKey d notification_type with
      | .error e => .error e
      | .ok d2 => filterTypesForApp user_forum_roles rest d2

/-- Shallow embedding of `filter_out_visible_notifications` from
`openedx/core/djangoapps/notifications/utils.py`.  Each app entry of
`user_preferences` is a pair of the app name and its preference dictionary,
embedded as `Option (List (String × Bool))`: `some d` when the app dictionary
contains the key `notification_types` (with value `d`), `none` otherwise
(the Python code checks membership of that key before processing an app).
A `KeyError` raised by the unguarded `pop` aborts the whole call. -/
def filter_out_visible_notifications
    (user_preferences : List (String × Option (List (String × Bool))))
    (notifications_with_visibility : List (String × List String))
    (user_forum_roles : List String) :
    Except String (List (String × Option (List (String × Bool)))) :=
  match user_preferences with
  | [] => .ok []
  | (k, none) :: rest =>
    match filter_out_visible_notifications rest notifications_with_visibility user_forum_roles with
    | .error e => .error e
    | .ok rest2 => .ok ((k, none) :: rest2)
  | (k, some d) :: rest =>
    match filterTypesForApp user_forum_roles notifications_with_visibility d with
    | .error e => .error e
    | .ok d2 =>
      match filter_out_visible_notifications rest notifications_with_visibility user_forum_roles with
      | .error e => .error e
      | .ok rest2 => .ok ((k, some d2) :: rest2)

/-- The course-wide notification type names computed by
`filter_course_wide_preferences`: always `new_discussion_post` and
`new_question_post`, plus `content_reported` when reported-content
notifications are disabled. -/
def courseWideTypes (reportedContentEnabled : Bool) : List String :=
  if reportedContentEnabled then ["new_discussion_post", "new_question_post"]
  else ["new_discussion_post", "new_question_post", "content_reported"]

/-- Guarded removal loop of `filter_course_wide_preferences`: for each
course-wide type, pop it from the app's `notification_types` dictionary only
after checking `course_wide_type in notification_types.keys()`, so the pop
can never raise. -/
def popCourseWideTypes : List String → List (String × Bool) → Except String (List (String × Bool))
  | [], d => .ok d
  | t :: rest, d =>
    if (d.lookup t).isSome then
      match popKey d t with
      | .error e => .error e
      | .ok d2 => popCourseWideTypes rest d2
    else popCourseWideTypes rest d

/-- Apply the guarded course-wide removal to every app entry of the
`notification_preference_config` dictionary. -/
def filterCWApps (types : List String) :
    List (String × List (String × Bool)) → Except String (List (String × List (String × Bool)))
  | [] => .ok []
  | (k, d) :: rest =>
    match popCourseWideTypes types d with
    | .error e => .error e
    | .ok d2 =>
      match filterCWApps types rest with
      | .error e => .error e
      | .ok rest2 => .ok ((k, d2) :: rest2)

/-- Shallow embedding of `filter_course_wide_preferences` from
`openedx/core/djangoapps/notifications/utils.py`.  The two waffle flags are
embedded as explicit booleans; `config` maps each app name to its
`notification_types` dictionary.  The removal is membership-guarded, so the
result is always `.ok` — in contrast with `filter_out_visible_notifications`. -/
def filter_course_wide_preferences (coursewideEnabled reportedContentEnabled : Bool)
    (config : List (String × List (String × Bool))) :
    Except String (List (String × List (String × Bool))) :=
  if coursewideEnabled then .ok config
  else filterCWApps (courseWideTypes reportedContentEnabled) config

/-- `true` exactly when an `Except` computation raised. -/
def isErrorE {ε α : Type} : Except ε α → Bool
  | .error _ => true
  | .ok _ => false

/- ### Static assets and the reconciler (modelled from the spec) -/

/-- Modelled from the spec: an `AssetRecord` of the content store — a filename
together with the asset's content bytes.  The course identifier component of
the `AssetKey` is implicit: a store is always the asset namespace of a single
course, keyed by filename. -/
structure AssetRecord where
  filename : String
  bytes : List Nat
deriving DecidableEq

/-- Modelled from the spec: the content digest of an asset's bytes.  The spec
requires that records with identical bytes have identical digests and that
its testable properties treat differing bytes as yielding differing digests
(conflict detection by digest comparison), so the digest is modelled as an
injective encoding of the byte list. -/
def digestOf : List Nat → Nat
  | [] => 0
  | b :: rest => Nat.pair b (digestOf rest) + 1

/-- Modelled from the spec: content store lookup `find` by filename —
the destination record with the given filename, if any. -/
def findAsset (store : List AssetRecord) (name : String) : Option AssetRecord :=
  store.find? fun r => r.filename == name

/-- Modelled from the spec: the `asset_notices` part of a `PasteResult` —
the three ordered filename lists reported by the paste endpoint. -/
structure StaticFileNotices where
  newFiles : List String
  conflictingFiles : List String
  errorFiles : List String
deriving DecidableEq

/-- Modelled from the spec: the `AssetReconciler.reconcile` operation, which
is not part of the excerpted sources.  For each source asset in encounter
order, look up a destination record with the same filename:
absent and the copy succeeds → copy the bytes into the destination and record
the filename under `new_files`; absent and the copy raises an I/O error
(modelled by the environment predicate `copyFails`) → record the filename
under `error_files` and continue; present with equal digest → no action and
no notice; present with differing digest → do not overwrite, record the
filename under `conflicting_files`.  Returns the notices (in encounter order)
and the final destination store. -/
def reconcile (copyFails : String → Bool) :
    List AssetRecord → List AssetRecord → StaticFileNotices × List AssetRecord
  | [], store => (⟨[], [], []⟩, store)
  | src :: rest, store =>
    match findAsset store src.filename with
    | none =>
      if copyFails src.filename then
        let r := reconcile copyFails rest store
        ({ r.1 with errorFiles := src.filename :: r.1.errorFiles }, r.2)
      else
        let r := reconcile copyFails rest (store ++ [src])
        ({ r.1 with newFiles := src.filename :: r.1.newFiles }, r.2)
    | some dest =>
      if digestOf dest.bytes = digestOf src.bytes then
        reconcile copyFails rest store
      else
        let r := reconcile copyFails rest store
        ({ r.1 with conflictingFiles := src.filename :: r.1.conflictingFiles }, r.2)

/- ### XBlock subtrees and the paste orchestrator (modelled from the spec) -/

mutual

/-- Modelled from the spec: a staged XBlock subtree.  Each node carries its
identifier, its non-identity field values (field name / value pairs), the
`copied_from` provenance back-reference (set only on pasted roots), and its
children. -/
inductive XBlockTree : Type where
  | node (id : Nat) (fields : List (String × String)) (copiedFrom : Option String)
      (children : XBlockForest)

/-- A list of sibling XBlock subtrees. -/
inductive XBlockForest : Type where
  | nil
  | cons (head : XBlockTree) (tail : XBlockForest)

end

/-- The identifier of a subtree's root node. -/
def rootId : XBlockTree → Nat
  | .node i _ _ _ => i

/-- The `copied_from` back-reference of a subtree's root node. -/
def rootCopiedFrom : XBlockTree → Option String
  | .node _ _ cf _ => cf

/-- The number of trees in a forest. -/
def forestLength : XBlockForest → Nat
  | .nil => 0
  | .cons _ rest => forestLength rest + 1

/-- The child count of a subtree's root node. -/
def childCount : XBlockTree → Nat
  | .node _ _ _ cs => forestLength cs

/-- Set the `copied_from` back-reference on the root node of a subtree. -/
def setCopiedFrom : XBlockTree → String → XBlockTree
  | .node i f _ cs, s => .node i f (some s) cs

mutual

/-- Modelled from the spec: deserialization of a staged subtree with fresh
identifier generation — every node receives the next identifier from a
counter, while the parent/child structure and all field values are kept.
Returns the rebuilt tree and the counter after the last allocation. -/
def regenTree : XBlockTree → Nat → XBlockTree × Nat
  | .node _ fields cf children, n =>
    let r := regenForest children (n + 1)
    (.node n fields cf r.1, r.2)

/-- Forest version of `regenTree`: regenerate each sibling in order,
threading the identifier counter. -/
def regenForest : XBlockForest → Nat → XBlockForest × Nat
  | .nil, n => (.nil, n)
  | .cons t rest, n =>
    let rt := regenTree t n
    let rr := regenForest rest rt.2
    (.cons rt.1 rr.1, rr.2)

end

mutual

/-- All node identifiers of a subtree, root first. -/
def allIdsT : XBlockTree → List Nat
  | .node i _ _ cs => i :: allIdsF cs

/-- All node identifiers of a forest. -/
def allIdsF : XBlockForest → List Nat
  | .nil => []
  | .cons t rest => allIdsT t ++ allIdsF rest

end

mutual

/-- Structural equality of two subtrees up to identifiers and up to the
`copied_from` provenance marker: same parent/child structure and equal
non-identity field values node for node. -/
def sameShapeT : XBlockTree → XBlockTree → Bool
  | .node _ f1 _ c1, .node _ f2 _ c2 => (f1 == f2) && sameShapeF c1 c2

/-- Forest version of `sameShapeT`. -/
def sameShapeF : XBlockForest → XBlockForest → Bool
  | .nil, .nil => true
  | .cons t1 r1, .cons t2 r2 => sameShapeT t1 t2 && sameShapeF r1 r2
  | .nil, .cons _ _ => false
  | .cons _ _, .nil => false

end

/-- Modelled from the spec: a user's clipboard entry — the serialized copied
subtree plus the asset records it references (a set of asset keys, so the
filenames are pairwise distinct; kept in encounter order). -/
structure ClipboardEntry where
  subtree : XBlockTree
  assets : List AssetRecord

/-- Modelled from the spec: the destination state a paste acts on — the
children list of the destination parent block and the destination course's
asset store. -/
structure CourseState where
  parentChildren : List Nat
  assetStore : List AssetRecord

/-- Modelled from the spec: the summary returned by a paste — the new subtree
root identifier and the static-file notices. -/
structure PasteResult where
  newRootId : Nat
  notices : StaticFileNotices

/-- Modelled from the spec: the full outcome of a successful paste — the
returned `PasteResult`, the updated destination state, and the newly created
subtree. -/
structure PasteOutcome where
  result : PasteResult
  state : CourseState
  newSubtree : XBlockTree

/-- Modelled from the spec: the errors the paste orchestrator can surface. -/
inductive PasteError where
  | emptyClipboard
  | notFound
deriving DecidableEq

/-- Modelled from the spec: the HTTP status under which each paste error is
surfaced to the caller (both are client errors). -/
def pasteErrorStatus : PasteError → Nat
  | .emptyClipboard => 400
  | .notFound => 404

/-- A surfaced error status is a client error when it lies in the 4xx range. -/
def isClientError (e : PasteError) : Bool :=
  400 ≤ pasteErrorStatus e && pasteErrorStatus e < 500

/-- Modelled from the spec: the successful branch of the paste orchestrator.
Deserialize the staged subtree generating fresh identifiers from `nextId`,
record the `copied_from` back-reference (the exact string form of the source
root identifier) on the new root, attach the new root as the last child of
the destination parent, and reconcile the referenced assets against the
destination course's asset store. -/
def pasteOk (entry : ClipboardEntry) (st : CourseState) (nextId : Nat)
    (copyFails : String → Bool) : PasteOutcome :=
  let regened := regenTree entry.subtree nextId
  let newTree := setCopiedFrom regened.1 (Nat.repr (rootId entry.subtree))
  let r := reconcile copyFails entry.assets st.assetStore
  { result := { newRootId := rootId newTree, notices := r.1 }
    state := { parentChildren := st.parentChildren ++ [rootId newTree], assetStore := r.2 }
    newSubtree := newTree }

/-- Modelled from the spec: the paste orchestrator.  Retrieving the user's
clipboard entry fails with `EmptyClipboardError` when none exists; otherwise
the paste proceeds as in `pasteOk`. -/
def paste (clip : Option ClipboardEntry) (st : CourseState) (nextId : Nat)
    (copyFails : String → Bool) : Except PasteError PasteOutcome :=
  match clip with
  | none => .error .emptyClipboard
  | some entry => .ok (pasteOk entry st nextId copyFails)

/-- The destination state after a paste attempt: unchanged when the paste
fails, the updated state otherwise. -/
def pasteFinalState (clip : Option ClipboardEntry) (st : CourseState) (nextId : Nat)
    (copyFails : String → Bool) : CourseState :=
  match paste clip st nextId copyFails with
  | .error _ => st
  | .ok out => out.state

/- ### Library content blocks (modelled from the spec) -/

/-- Modelled from the spec: a child of a library content block — the
identifier of the library block it was sourced from, together with its local
identifier in the course. -/
structure LCChild where
  librarySourceId : Nat
  localId : Nat
deriving DecidableEq

/-- Allocate consecutive local identifiers (starting at `n`) to a list of
library source identifiers. -/
def assignIds : List Nat → Nat → List LCChild
  | [], _ => []
  | s :: rest, n => ⟨s, n⟩ :: assignIds rest (n + 1)

/-- The stable mapping (library-source-identifier → local-identifier)
recorded for a list of library-sourced children. -/
def lcIdMap (children : List LCChild) : List (Nat × Nat) :=
  children.map fun c => (c.librarySourceId, c.localId)

/-- Modelled from the spec: a pasted library content block — its
library-sourced children and the recorded stable identifier mapping. -/
structure LCBlock where
  children : List LCChild
  idMap : List (Nat × Nat)
deriving DecidableEq

/-- Modelled from the spec: pasting a library content block creates fresh
local identifiers for its library-sourced children and records the stable
mapping key (library-source-identifier → local-identifier) for each of them. -/
def pasteLibraryContent (libSourceIds : List Nat) (nextId : Nat) : LCBlock :=
  let cs := assignIds libSourceIds nextId
  { children := cs, idMap := lcIdMap cs }

/-- Modelled from the spec: re-syncing the children of a library content
block from the library.  Each library source identifier reuses the local
identifier recorded in the stable mapping when one exists, and receives a
fresh local identifier otherwise. -/
def resyncChildren (idMap : List (Nat × Nat)) : List Nat → Nat → List LCChild
  | [], _ => []
  | s :: rest, n =>
    match idMap.lookup s with
    | some l => ⟨s, l⟩ :: resyncChildren idMap rest n
    | none => ⟨s, n⟩ :: resyncChildren idMap rest (n + 1)

/-- Modelled from the spec: re-sync a library content block against the
library's current list of source identifiers, rebuilding the stable mapping
from the resulting children. -/
def resyncLC (blk : LCBlock) (libSourceIds : List Nat) (nextId : Nat) : LCBlock :=
  let cs := resyncChildren blk.idMap libSourceIds nextId
  { children := cs, idMap := lcIdMap cs }

/- ### Concrete inputs used by witness theorems -/

/-- A one-node staged subtree used as concrete witness input. -/
def wTree : XBlockTree := .node 0 [("display_name", "Video")] none .nil

/-- A source asset used as concrete witness input. -/
def wAssetSrc : AssetRecord := ⟨"a", [1]⟩

/-- A destination asset with the same filename but different bytes. -/
def wAssetDst : AssetRecord := ⟨"a", [2]⟩

/-- A clipboard entry holding `wTree` and referencing `wAssetSrc`. -/
def wEntry : ClipboardEntry := ⟨wTree, [wAssetSrc]⟩

/-- A destination state whose asset store holds the conflicting `wAssetDst`. -/
def wState : CourseState := ⟨[9], [wAssetDst]⟩

/-- A destination state with an empty asset store. -/
def wStateEmpty : CourseState := ⟨[9], []⟩

/-- The environment in which no asset copy raises an I/O error. -/
def noFail : String → Bool := fun _ => false

/-- The environment in which every asset copy raises an I/O error. -/
def allFail : String → Bool := fun _ => true

/-! ## Theorems -/

/- ### Helper lemmas for the paste orchestrator -/

theorem rootCopiedFrom_setCopiedFrom (t : XBlockTree) (s : String) :
    rootCopiedFrom (setCopiedFrom t s) = some s := by
  cases t
  rfl

/- ### Library content re-sync lemmas -/

theorem resyncChildren_cons_irrel (k v : Nat) (M : List (Nat × Nat)) :
    ∀ (lib : List Nat) (m : Nat), (∀ s ∈ lib, s ≠ k) →
      resyncChildren ((k, v) :: M) lib m = resyncChildren M lib m := by
  intro lib
  induction lib with
  | nil => intro m _; rfl
  | cons s rest ih =>
    intro m h
    have hsk : (s == k) = false := beq_eq_false_iff_ne.mpr (h s (by simp))
    have hrest : ∀ x ∈ rest, x ≠ k := fun x hx => h x (by simp [hx])
    simp only [resyncChildren, List.lookup_cons, hsk]
    cases hL : List.lookup s M with
    | some l => simp [hL, ih m hrest]
    | none => simp [hL, ih (m + 1) hrest]

theorem resyncChildren_assign : ∀ (lib : List Nat), lib.Nodup →
    ∀ n m, resyncChildren (lcIdMap (assignIds lib n)) lib m = assignIds lib n := by
  intro lib
  induction lib with
  | nil => intro _ n m; rfl
  | cons s rest ih =>
    intro hnd n m
    obtain ⟨hs, hrest⟩ := List.nodup_cons.mp hnd
    have hne : ∀ x ∈ rest, x ≠ s := fun x hx he => hs (he ▸ hx)
    simp only [assignIds, lcIdMap, List.map_cons, resyncChildren, List.lookup_cons,
      beq_self_eq_true]
    rw [resyncChildren_cons_irrel s n _ rest m hne]
    have := ih hrest (n + 1) m
    simp only [lcIdMap] at this
    rw [this]

/-- C8: For every pasted library-content block, the identifiers of its
library-sourced children are stable across a subsequent re-sync with the
source library: re-syncing the pasted block against the same library source
identifiers (with any fresh-identifier counter) reproduces exactly the
children created by the paste, so each child's identifier after the re-sync
is identity-equal to its identifier immediately after the paste. -/
theorem library_children_stable_after_resync (lib : List Nat) (hnd : lib.Nodup) (n m : Nat) :
    resyncLC (pasteLibraryContent lib n) lib m = pasteLibraryContent lib n := by
  simp [resyncLC, pasteLibraryContent, resyncChildren_assign lib hnd n m]

theorem library_children_stable_after_resync_witness :
    ([3, 7] : List Nat).Nodup ∧
      resyncLC (pasteLibraryContent [3, 7] 10) [3, 7] 20 = pasteLibraryContent [3, 7] 10 :=
  ⟨by decide, library_children_stable_after_resync [3, 7] (by decide) 10 20⟩

/- ### Paste orchestrator claims -/

/-- C3: For every successful paste into a destination parent, the new subtree
root is attached as the last element of the parent's children list, the
parent's child count increases by exactly one, and all previously existing
children remain in their original positions (the old children list is an
unchanged prefix of the new one). -/
theorem paste_appends_as_last_child (entry : ClipboardEntry) (st : CourseState)
    (nextId : Nat) (copyFails : String → Bool) :
    paste (some entry) st nextId copyFails = .ok (pasteOk entry st nextId copyFails) ∧
    (pasteOk entry st nextId copyFails).state.parentChildren
      = st.parentChildren ++ [(pasteOk entry st nextId copyFails).result.newRootId] ∧
    (pasteOk entry st nextId copyFails).state.parentChildren.length
      = st.parentChildren.length + 1 ∧
    (pasteOk entry st nextId copyFails).state.parentChildren.getLast?
      = some ((pasteOk entry st nextId copyFails).result.newRootId) ∧
    (pasteOk entry st nextId copyFails).state.parentChildren.take st.parentChildren.length
      = st.parentChildren := by
  refine ⟨rfl, rfl, ?_, ?_, ?_⟩
  · simp [pasteOk]
  · simp [pasteOk]
  · simp [pasteOk, List.take_left]

/-- C4: For every successful paste, the root block of the newly created
subtree carries a `copied_from` back-reference whose value equals the exact
string form of the source block's identifier. -/
theorem paste_sets_copied_from (entry : ClipboardEntry) (st : CourseState)
    (nextId : Nat) (copyFails : String → Bool) :
    paste (some entry) st nextId copyFails = .ok (pasteOk entry st nextId copyFails) ∧
    rootCopiedFrom (pasteOk entry st nextId copyFails).newSubtree
      = some (Nat.repr (rootId entry.subtree)) := by
  exact ⟨rfl, rootCopiedFrom_setCopiedFrom _ _⟩

/-- C5: For every user with no staged clipboard entry, invoking paste fails
with `EmptyClipboardError`, surfaced to the caller as a client error (a 4xx
status), and the destination state is not modified. -/
theorem paste_empty_clipboard_error (st : CourseState) (nextId : Nat)
    (copyFails : String → Bool) :
    paste none st nextId copyFails = .error .emptyClipboard ∧
    pasteFinalState none st nextId copyFails = st ∧
    isClientError .emptyClipboard = true :=
  ⟨rfl, rfl, rfl⟩

/- ### Batching lemmas -/

theorem range'_shift (k : Nat) : ∀ (m s : Nat),
    List.range' (s + k) m k = (List.range' s m k).map (· + k) := by
  intro m
  induction m with
  | zero => intro s; rfl
  | succ m ih =>
    intro s
    rw [List.range'_succ, List.range'_succ, List.map_cons, ih (s + k)]

theorem batch_count_drop (n k : Nat) (hk : 0 < k) : (n - k + k - 1) / k = (n - 1) / k := by
  rcases le_or_lt k n with h | h
  · have h2 : n - k + k - 1 = n - 1 := by omega
    rw [h2]
  · have h1 : n - k = 0 := by omega
    rw [h1, Nat.div_eq_of_lt (by omega), Nat.div_eq_of_lt (by omega)]

theorem get_list_in_batches_eq_chunked {α : Type} (k : Nat) (hk : 0 < k) (l : List α) :
    get_list_in_batches l k = chunked k hk l := by
  cases l with
  | nil =>
    have h0 : (k - 1) / k = 0 := Nat.div_eq_of_lt (by omega)
    simp [get_list_in_batches, chunked, h0]
  | cons a rest =>
    show (List.range' 0 (((a :: rest).length + k - 1) / k) k).map
        (fun i => ((a :: rest).drop i).take k) = chunked k hk (a :: rest)
    have h1 : ((a :: rest).length + k - 1) / k = ((a :: rest).length - 1) / k + 1 := by
      have h2 : (a :: rest).length + k - 1 = ((a :: rest).length - 1) + k := by
        simp only [List.length_cons]
        omega
      rw [h2, Nat.add_div_right _ hk]
    rw [h1, List.range'_succ, List.map_cons, range'_shift k _ 0, List.map_map]
    have hcomp : ((fun i => ((a :: rest).drop i).take k) ∘ (· + k))
        = fun i => (((a :: rest).drop k).drop i).take k := by
      funext i
      simp only [Function.comp_apply, List.drop_drop]
      rw [Nat.add_comm i k]
    rw [hcomp]
    have hrec := get_list_in_batches_eq_chunked k hk ((a :: rest).drop k)
    simp only [get_list_in_batches, List.length_drop] at hrec
    rw [batch_count_drop ((a :: rest).length) k hk] at hrec
    simp only [chunked]
    rw [← hrec]
    simp
termination_by l.length
decreasing_by
  simp only [List.length_drop, List.length_cons]
  omega

theorem chunked_flatten {α : Type} (k : Nat) (hk : 0 < k) (l : List α) :
    (chunked k hk l).flatten = l := by
  cases l with
  | nil => simp [chunked]
  | cons a rest =>
    have ih := chunked_flatten k hk ((a :: rest).drop k)
    simp only [chunked, List.flatten_cons, ih, List.take_append_drop]
termination_by l.length
decreasing_by
  simp only [List.length_drop, List.length_cons]
  omega

theorem chunked_ne_nil {α : Type} (k : Nat) (hk : 0 < k) (l : List α) :
    ∀ b ∈ chunked k hk l, b ≠ [] := by
  cases l with
  | nil => simp [chunked]
  | cons a rest =>
    intro b hb
    simp only [chunked] at hb
    rcases List.mem_cons.mp hb with h | h
    · subst h
      cases k with
      | zero => exact absurd hk (by omega)
      | succ k2 => simp [List.take_succ_cons]
    · exact chunked_ne_nil k hk ((a :: rest).drop k) b h
termination_by l.length
decreasing_by
  simp only [List.length_drop, List.length_cons]
  omega

theorem chunked_batch_length {α : Type} (k : Nat) (hk : 0 < k) (l : List α) :
    ∀ i, i + 1 < (chunked k hk l).length → ((chunked k hk l).getD i []).length = k := by
  cases l with
  | nil => intro i h; simp [chunked] at h
  | cons a rest =>
    intro i h
    simp only [chunked] at h ⊢
    cases i with
    | zero =>
      have hlen : 0 < (chunked k hk ((a :: rest).drop k)).length := by
        simp only [List.length_cons] at h
        omega
      have hdropne : (a :: rest).drop k ≠ [] := by
        intro he
        rw [he] at hlen
        simp [chunked] at hlen
      have hk_le : k ≤ (a :: rest).length := by
        by_contra hlt
        push_neg at hlt
        exact hdropne (List.drop_eq_nil_of_le (le_of_lt hlt))
      rw [List.getD_cons_zero, List.length_take]
      simp only [List.length_cons] at hk_le ⊢
      omega
    | succ i2 =>
      rw [List.getD_cons_succ]
      apply chunked_batch_length k hk ((a :: rest).drop k) i2
      simp only [List.length_cons] at h
      omega
termination_by l.length
decreasing_by
  simp only [List.length_drop, List.length_cons]
  omega

/-- C9: For every list and every positive `batch_size`, concatenating the
batches yielded by `get_list_in_batches input_list batch_size` in order equals
`input_list`, every yielded batch is non-empty, and every batch except
possibly the last has length exactly `batch_size`. -/
theorem get_list_in_batches_spec {α : Type} (input_list : List α) (batch_size : Nat)
    (hk : 0 < batch_size) :
    (get_list_in_batches input_list batch_size).flatten = input_list ∧
    (∀ b ∈ get_list_in_batches input_list batch_size, b ≠ []) ∧
    ∀ i, i + 1 < (get_list_in_batches input_list batch_size).length →
      ((get_list_in_batches input_list batch_size).getD i []).length = batch_size := by
  rw [get_list_in_batches_eq_chunked batch_size hk input_list]
  exact ⟨chunked_flatten _ hk _, chunked_ne_nil _ hk _, chunked_batch_length _ hk _⟩

theorem get_list_in_batches_spec_witness :
    0 < 2 ∧
      ((get_list_in_batches ([10, 20, 30, 40, 50] : List Nat) 2).flatten
          = [10, 20, 30, 40, 50] ∧
        (∀ b ∈ get_list_in_batches ([10, 20, 30, 40, 50] : List Nat) 2, b ≠ []) ∧
        ∀ i, i + 1 < (get_list_in_batches ([10, 20, 30, 40, 50] : List Nat) 2).length →
          ((get_list_in_batches ([10, 20, 30, 40, 50] : List Nat) 2).getD i []).length = 2) :=
  ⟨by decide, get_list_in_batches_spec [10, 20, 30, 40, 50] 2 (by decide)⟩

/- ### Notification filtering lemmas -/

theorem lookup_filter_ne_none (nt key : String) :
    ∀ d : List (String × Bool), d.lookup nt = none →
      (d.filter fun p => p.1 != key).lookup nt = none := by
  intro d
  induction d with
  | nil => intro _; rfl
  | cons p rest ih =>
    intro h
    obtain ⟨k2, v⟩ := p
    rw [List.lookup_cons] at h
    cases hb : nt == k2 with
    | true => rw [hb] at h; exact absurd h (by simp)
    | false =>
      rw [hb] at h
      by_cases hkey : (k2 != key) = true
      · rw [List.filter_cons, if_pos hkey, List.lookup_cons, hb]
        exact ih h
      · rw [List.filter_cons, if_neg hkey]
        exact ih h

theorem filterTypesForApp_err (roles : List String) :
    ∀ (visList : List (String × List String)) (d : List (String × Bool))
      (nt : String) (vis : List String),
      (nt, vis) ∈ visList → (vis.any fun role => roles.contains role) = false →
      d.lookup nt = none →
      isErrorE (filterTypesForApp roles visList d) = true := by
  intro visList
  induction visList with
  | nil => intro d nt vis hmem; exact absurd hmem (by simp)
  | cons hd rest ih =>
    intro d nt vis hmem hinv habs
    obtain ⟨nt2, vis2⟩ := hd
    rcases List.mem_cons.mp hmem with heq | htail
    · obtain ⟨h1, h2⟩ := Prod.mk.injEq nt2 vis2 nt vis ▸ heq.symm
      subst h1; subst h2
      simp only [filterTypesForApp, hinv, Bool.false_eq_true, if_false, popKey, habs]
      rfl
    · by_cases hv : (vis2.any fun role => roles.contains role) = true
      · simp only [filterTypesForApp, hv, if_true]
        exact ih d nt vis htail hinv habs
      · simp only [Bool.not_eq_true] at hv
        simp only [filterTypesForApp, hv, Bool.false_eq_true, if_false]
        cases hL : d.lookup nt2 with
        | none => simp [popKey, hL, isErrorE]
        | some v =>
          simp only [popKey, hL]
          exact ih _ nt vis htail hinv (lookup_filter_ne_none nt nt2 d habs)

theorem filter_out_err (visList : List (String × List String)) (roles : List String) :
    ∀ (ups : List (String × Option (List (String × Bool))))
      (k : String) (d : List (String × Bool)),
      (k, some d) ∈ ups →
      isErrorE (filterTypesForApp roles visList d) = true →
      isErrorE (filter_out_visible_notifications ups visList roles) = true := by
  intro ups
  induction ups with
  | nil => intro k d hmem; exact absurd hmem (by simp)
  | cons hd rest ih =>
    intro k d hmem herr
    obtain ⟨k2, od⟩ := hd
    rcases List.mem_cons.mp hmem with heq | htail
    · obtain ⟨h1, h2⟩ := Prod.mk.injEq k2 od k (some d) ▸ heq.symm
      subst h1; subst h2
      cases hE : filterTypesForApp roles visList d with
      | error e => simp [filter_out_visible_notifications, hE, isErrorE]
      | ok d2 => rw [hE] at herr; exact absurd herr (by simp [isErrorE])
    · cases od with
      | none =>
        cases hR : filter_out_visible_notifications rest visList roles with
        | error e => simp [filter_out_visible_notifications, hR, isErrorE]
        | ok rest2 =>
          have := ih k d htail herr
          rw [hR] at this
          exact absurd this (by simp [isErrorE])
      | some d3 =>
        cases hE : filterTypesForApp roles visList d3 with
        | error e => simp [filter_out_visible_notifications, hE, isErrorE]
        | ok d4 =>
          cases hR : filter_out_visible_notifications rest visList roles with
          | error e => simp [filter_out_visible_notifications, hE, hR, isErrorE]
          | ok rest2 =>
            have := ih k d htail herr
            rw [hR] at this
            exact absurd this (by simp [isErrorE])

theorem popCourseWideTypes_ok : ∀ (types : List String) (d : List (String × Bool)),
    isErrorE (popCourseWideTypes types d) = false := by
  intro types
  induction types with
  | nil => intro d; rfl
  | cons t rest ih =>
    intro d
    cases hL : d.lookup t with
    | none => simp only [popCourseWideTypes, hL, Option.isSome_none, Bool.false_eq_true,
        if_false]; exact ih d
    | some v =>
      simp only [popCourseWideTypes, hL, Option.isSome_some, if_true, popKey]
      exact ih _

theorem filterCWApps_ok (types : List String) :
    ∀ config : List (String × List (String × Bool)),
      isErrorE (filterCWApps types config) = false := by
  intro config
  induction config with
  | nil => rfl
  | cons hd rest ih =>
    obtain ⟨k, d⟩ := hd
    cases hP : popCourseWideTypes types d with
    | error e =>
      have := popCourseWideTypes_ok types d
      rw [hP] at this
      exact absurd this (by simp [isErrorE])
    | ok d2 =>
      cases hR : filterCWApps types rest with
      | error e => rw [hR] at ih; exact absurd ih (by simp [isErrorE])
      | ok rest2 => simp [filterCWApps, hP, hR, isErrorE]

/-- C10: `filter_out_visible_notifications` raises a `KeyError` whenever some
notification type in `notifications_with_visibility` is not visible to any of
the user's forum roles and is absent from an app entry's `notification_types`
dictionary, because the removal uses an unguarded `dict.pop` with no
membership check and no default — unlike `filter_course_wide_preferences`,
whose membership-guarded pop never raises (second conjunct). -/
theorem filter_out_visible_notifications_keyerror
    (user_preferences : List (String × Option (List (String × Bool))))
    (notifications_with_visibility : List (String × List String))
    (user_forum_roles : List String)
    (k : String) (d : List (String × Bool)) (nt : String) (vis : List String)
    (happ : (k, some d) ∈ user_preferences)
    (hvis : (nt, vis) ∈ notifications_with_visibility)
    (hinvisible : (vis.any fun role => user_forum_roles.contains role) = false)
    (habsent : d.lookup nt = none) :
    isErrorE (filter_out_visible_notifications user_preferences
        notifications_with_visibility user_forum_roles) = true ∧
    ∀ (cw rep : Bool) (config : List (String × List (String × Bool))),
      isErrorE (filter_course_wide_preferences cw rep config) = false := by
  constructor
  · exact filter_out_err notifications_with_visibility user_forum_roles user_preferences k d
      happ (filterTypesForApp_err user_forum_roles notifications_with_visibility d nt vis
        hvis hinvisible habsent)
  · intro cw rep config
    cases cw with
    | true => rfl
    | false =>
      simp only [filter_course_wide_preferences, Bool.false_eq_true, if_false]
      exact filterCWApps_ok (courseWideTypes rep) config

theorem filter_out_visible_notifications_keyerror_witness :
    (("discussion", some [("core", true)]) ∈
        ([("discussion", some [("core", true)])] :
          List (String × Option (List (String × Bool))))) ∧
    (("reported_content", ["Moderator"]) ∈
        ([("reported_content", ["Moderator"])] : List (String × List String))) ∧
    ((["Moderator"].any fun role => ([] : List String).contains role) = false) ∧
    (([("core", true)] : List (String × Bool)).lookup "reported_content" = none) ∧
    (isErrorE (filter_out_visible_notifications [("discussion", some [("core", true)])]
        [("reported_content", ["Moderator"])] []) = true ∧
      ∀ (cw rep : Bool) (config : List (String × List (String × Bool))),
        isErrorE (filter_course_wide_preferences cw rep config) = false) :=
  ⟨by decide, by decide, by decide, by decide,
    filter_out_visible_notifications_keyerror
      [("discussion", some [("core", true)])] [("reported_content", ["Moderator"])] []
      "discussion" [("core", true)] "reported_content" ["Moderator"]
      (by decide) (by decide) (by decide) (by decide)⟩

/- ### Digest and content-store lemmas -/

theorem digestOf_inj : ∀ (b1 b2 : List Nat), digestOf b1 = digestOf b2 → b1 = b2 := by
  intro b1
  induction b1 with
  | nil =>
    intro b2 h
    cases b2 with
    | nil => rfl
    | cons c rest2 =>
      simp only [digestOf] at h
      exact absurd h (by omega)
  | cons b rest ih =>
    intro b2 h
    cases b2 with
    | nil =>
      simp only [digestOf] at h
      exact absurd h (by omega)
    | cons c rest2 =>
      simp only [digestOf] at h
      have h2 : Nat.pair b (digestOf rest) = Nat.pair c (digestOf rest2) := by omega
      obtain ⟨hb, hd⟩ := Nat.pair_eq_pair.mp h2
      rw [hb, ih rest2 hd]

theorem findAsset_append_some (store l : List AssetRecord) (name : String) (d : AssetRecord)
    (h : findAsset store name = some d) : findAsset (store ++ l) name = some d := by
  simp only [findAsset] at h ⊢
  rw [List.find?_append, h]
  rfl

theorem findAsset_append_singleton_ne (store : List AssetRecord) (s : AssetRecord)
    (name : String) (hne : s.filename ≠ name) :
    findAsset (store ++ [s]) name = findAsset store name := by
  simp only [findAsset]
  rw [List.find?_append]
  have hs : List.find? (fun r => r.filename == name) [s] = none := by
    simp [List.find?, beq_eq_false_iff_ne.mpr hne]
  rw [hs, Option.or_none]

/- ### Reconciler lemmas -/

theorem reconcile_new_sublist (cf : String → Bool) :
    ∀ (srcs store : List AssetRecord),
      (reconcile cf srcs store).1.newFiles.Sublist (srcs.map fun r => r.filename) := by
  intro srcs
  induction srcs with
  | nil => intro store; simp [reconcile]
  | cons src rest ih =>
    intro store
    cases hF : findAsset store src.filename with
    | none =>
      cases hcf : cf src.filename with
      | true =>
        simp only [reconcile, hF, hcf, if_true, List.map_cons]
        exact (ih store).cons _
      | false =>
        simp only [reconcile, hF, hcf, Bool.false_eq_true, if_false, List.map_cons]
        exact (ih (store ++ [src])).cons₂ _
    | some dest =>
      by_cases hd : digestOf dest.bytes = digestOf src.bytes
      · simp only [reconcile, hF, if_pos hd, List.map_cons]
        exact (ih store).cons _
      · simp only [reconcile, hF, if_neg hd, List.map_cons]
        exact (ih store).cons _

theorem reconcile_conf_sublist (cf : String → Bool) :
    ∀ (srcs store : List AssetRecord),
      (reconcile cf srcs store).1.conflictingFiles.Sublist (srcs.map fun r => r.filename) := by
  intro srcs
  induction srcs with
  | nil => intro store; simp [reconcile]
  | cons src rest ih =>
    intro store
    cases hF : findAsset store src.filename with
    | none =>
      cases hcf : cf src.filename with
      | true =>
        simp only [reconcile, hF, hcf, if_true, List.map_cons]
        exact (ih store).cons _
      | false =>
        simp only [reconcile, hF, hcf, Bool.false_eq_true, if_false, List.map_cons]
        exact (ih (store ++ [src])).cons _
    | some dest =>
      by_cases hd : digestOf dest.bytes = digestOf src.bytes
      · simp only [reconcile, hF, if_pos hd, List.map_cons]
        exact (ih store).cons _
      · simp only [reconcile, hF, if_neg hd, List.map_cons]
        exact (ih store).cons₂ _

theorem reconcile_err_sublist (cf : String → Bool) :
    ∀ (srcs store : List AssetRecord),
      (reconcile cf srcs store).1.errorFiles.Sublist (srcs.map fun r => r.filename) := by
  intro srcs
  induction srcs with
  | nil => intro store; simp [reconcile]
  | cons src rest ih =>
    intro store
    cases hF : findAsset store src.filename with
    | none =>
      cases hcf : cf src.filename with
      | true =>
        simp only [reconcile, hF, hcf, if_true, List.map_cons]
        exact (ih store).cons₂ _
      | false =>
        simp only [reconcile, hF, hcf, Bool.false_eq_true, if_false, List.map_cons]
        exact (ih (store ++ [src])).cons _
    | some dest =>
      by_cases hd : digestOf dest.bytes = digestOf src.bytes
      · simp only [reconcile, hF, if_pos hd, List.map_cons]
        exact (ih store).cons _
      · simp only [reconcile, hF, if_neg hd, List.map_cons]
        exact (ih store).cons _

theorem reconcile_store_some (cf : String → Bool) :
    ∀ (srcs store : List AssetRecord) (name : String) (d : AssetRecord),
      findAsset store name = some d →
      findAsset (reconcile cf srcs store).2 name = some d := by
  intro srcs
  induction srcs with
  | nil => intro store name d h; simpa [reconcile] using h
  | cons src rest ih =>
    intro store name d h
    cases hF : findAsset store src.filename with
    | none =>
      cases hcf : cf src.filename with
      | true =>
        simp only [reconcile, hF, hcf, if_true]
        exact ih store name d h
      | false =>
        simp only [reconcile, hF, hcf, Bool.false_eq_true, if_false]
        exact ih (store ++ [src]) name d (findAsset_append_some store [src] name d h)
    | some dest =>
      by_cases hd : digestOf dest.bytes = digestOf src.bytes
      · simp only [reconcile, hF, if_pos hd]
        exact ih store name d h
      · simp only [reconcile, hF, if_neg hd]
        exact ih store name d h

theorem reconcile_mem_newFiles_iff (cf : String → Bool) :
    ∀ (srcs store : List AssetRecord) (a : AssetRecord),
      (srcs.map fun r => r.filename).Nodup → a ∈ srcs →
      (a.filename ∈ (reconcile cf srcs store).1.newFiles ↔
        (findAsset store a.filename = none ∧ cf a.filename = false)) := by
  intro srcs
  induction srcs with
  | nil => intro store a _ ha; exact absurd ha (by simp)
  | cons src rest ih =>
    intro store a hnd ha
    rw [List.map_cons] at hnd
    obtain ⟨hnotin, hndr⟩ := List.nodup_cons.mp hnd
    rcases List.mem_cons.mp ha with heq | hmem
    · subst heq
      cases hF : findAsset store a.filename with
      | none =>
        cases hcf : cf a.filename with
        | true =>
          simp only [reconcile, hF, hcf, if_true]
          constructor
          · intro hin
            exact absurd ((reconcile_new_sublist cf rest store).subset hin) hnotin
          · rintro ⟨-, hfalse⟩
            simp at hfalse
        | false =>
          simp only [reconcile, hF, hcf, Bool.false_eq_true, if_false]
          simp
      | some dest =>
        by_cases hd : digestOf dest.bytes = digestOf a.bytes
        · simp only [reconcile, hF, if_pos hd]
          constructor
          · intro hin
            exact absurd ((reconcile_new_sublist cf rest store).subset hin) hnotin
          · rintro ⟨hc, -⟩
            simp at hc
        · simp only [reconcile, hF, if_neg hd]
          constructor
          · intro hin
            exact absurd ((reconcile_new_sublist cf rest store).subset hin) hnotin
          · rintro ⟨hc, -⟩
            simp at hc
    · have hfne : src.filename ≠ a.filename := by
        intro he
        exact hnotin (he ▸ List.mem_map_of_mem (fun r => r.filename) hmem)
      cases hF : findAsset store src.filename with
      | none =>
        cases hcf : cf src.filename with
        | true =>
          simp only [reconcile, hF, hcf, if_true]
          exact ih store a hndr hmem
        | false =>
          simp only [reconcile, hF, hcf, Bool.false_eq_true, if_false]
          rw [List.mem_cons,
            ih (store ++ [src]) a hndr hmem,
            findAsset_append_singleton_ne store src a.filename hfne]
          constructor
          · rintro (he | h)
            · exact absurd he.symm hfne
            · exact h
          · intro h
            exact Or.inr h
      | some dest =>
        by_cases hd : digestOf dest.bytes = digestOf src.bytes
        · simp only [reconcile, hF, if_pos hd]
          exact ih store a hndr hmem
        · simp only [reconcile, hF, if_neg hd]
          exact ih store a hndr hmem

theorem reconcile_mem_errFiles_iff (cf : String → Bool) :
    ∀ (srcs store : List AssetRecord) (a : AssetRecord),
      (srcs.map fun r => r.filename).Nodup → a ∈ srcs →
      (a.filename ∈ (reconcile cf srcs store).1.errorFiles ↔
        (findAsset store a.filename = none ∧ cf a.filename = true)) := by
  intro srcs
  induction srcs with
  | nil => intro store a _ ha; exact absurd ha (by simp)
  | cons src rest ih =>
    intro store a hnd ha
    rw [List.map_cons] at hnd
    obtain ⟨hnotin, hndr⟩ := List.nodup_cons.mp hnd
    rcases List.mem_cons.mp ha with heq | hmem
    · subst heq
      cases hF : findAsset store a.filename with
      | none =>
        cases hcf : cf a.filename with
        | true =>
          simp only [reconcile, hF, hcf, if_true]
          simp
        | false =>
          simp only [reconcile, hF, hcf, Bool.false_eq_true, if_false]
          constructor
          · intro hin
            exact absurd ((reconcile_err_sublist cf rest (store ++ [a])).subset hin) hnotin
          · rintro ⟨-, hfalse⟩
            simp at hfalse
      | some dest =>
        by_cases hd : digestOf dest.bytes = digestOf a.bytes
        · simp only [reconcile, hF, if_pos hd]
          constructor
          · intro hin
            exact absurd ((reconcile_err_sublist cf rest store).subset hin) hnotin
          · rintro ⟨hc, -⟩
            simp at hc
        · simp only [reconcile, hF, if_neg hd]
          constructor
          · intro hin
            exact absurd ((reconcile_err_sublist cf rest store).subset hin) hnotin
          · rintro ⟨hc, -⟩
            simp at hc
    · have hfne : src.filename ≠ a.filename := by
        intro he
        exact hnotin (he ▸ List.mem_map_of_mem (fun r => r.filename) hmem)
      cases hF : findAsset store src.filename with
      | none =>
        cases hcf : cf src.filename with
        | true =>
          simp only [reconcile, hF, hcf, if_true]
          rw [List.mem_cons, ih store a hndr hmem]
          constructor
          · rintro (he | h)
            · exact absurd he.symm hfne
            · exact h
          · intro h
            exact Or.inr h
        | false =>
          simp only [reconcile, hF, hcf, Bool.false_eq_true, if_false]
          rw [ih (store ++ [src]) a hndr hmem,
            findAsset_append_singleton_ne store src a.filename hfne]
      | some dest =>
        by_cases hd : digestOf dest.bytes = digestOf src.bytes
        · simp only [reconcile, hF, if_pos hd]
          exact ih store a hndr hmem
        · simp only [reconcile, hF, if_neg hd]
          exact ih store a hndr hmem

theorem reconcile_mem_confFiles_iff (cf : String → Bool) :
    ∀ (srcs store : List AssetRecord) (a : AssetRecord),
      (srcs.map fun r => r.filename).Nodup → a ∈ srcs →
      (a.filename ∈ (reconcile cf srcs store).1.conflictingFiles ↔
        ∃ d, findAsset store a.filename = some d ∧
          digestOf d.bytes ≠ digestOf a.bytes) := by
  intro srcs
  induction srcs with
  | nil => intro store a _ ha; exact absurd ha (by simp)
  | cons src rest ih =>
    intro store a hnd ha
    rw [List.map_cons] at hnd
    obtain ⟨hnotin, hndr⟩ := List.nodup_cons.mp hnd
    rcases List.mem_cons.mp ha with heq | hmem
    · subst heq
      cases hF : findAsset store a.filename with
      | none =>
        cases hcf : cf a.filename with
        | true =>
          simp only [reconcile, hF, hcf, if_true]
          constructor
          · intro hin
            exact absurd ((reconcile_conf_sublist cf rest store).subset hin) hnotin
          · rintro ⟨d, hc, -⟩
            simp at hc
        | false =>
          simp only [reconcile, hF, hcf, Bool.false_eq_true, if_false]
          constructor
          · intro hin
            exact absurd ((reconcile_conf_sublist cf rest (store ++ [a])).subset hin) hnotin
          · rintro ⟨d, hc, -⟩
            simp at hc
      | some dest =>
        by_cases hd : digestOf dest.bytes = digestOf a.bytes
        · simp only [reconcile, hF, if_pos hd]
          constructor
          · intro hin
            exact absurd ((reconcile_conf_sublist cf rest store).subset hin) hnotin
          · rintro ⟨d, hsome, hne⟩
            rw [Option.some.injEq] at hsome
            subst hsome
            exact absurd hd hne
        · simp only [reconcile, hF, if_neg hd]
          constructor
          · intro _
            exact ⟨dest, rfl, hd⟩
          · intro _
            exact List.mem_cons_self _ _
    · have hfne : src.filename ≠ a.filename := by
        intro he
        exact hnotin (he ▸ List.mem_map_of_mem (fun r => r.filename) hmem)
      cases hF : findAsset store src.filename with
      | none =>
        cases hcf : cf src.filename with
        | true =>
          simp only [reconcile, hF, hcf, if_true]
          exact ih store a hndr hmem
        | false =>
          simp only [reconcile, hF, hcf, Bool.false_eq_true, if_false]
          rw [ih (store ++ [src]) a hndr hmem]
          simp only [findAsset_append_singleton_ne store src a.filename hfne]
      | some dest =>
        by_cases hd : digestOf dest.bytes = digestOf src.bytes
        · simp only [reconcile, hF, if_pos hd]
          exact ih store a hndr hmem
        · simp only [reconcile, hF, if_neg hd]
          rw [List.mem_cons, ih store a hndr hmem]
          constructor
          · rintro (he | h)
            · exact absurd he.symm hfne
            · exact h
          · intro h
            exact Or.inr h

theorem reconcile_total (cf : String → Bool) :
    ∀ (srcs store : List AssetRecord) (b : AssetRecord), b ∈ srcs →
      b.filename ∈ (reconcile cf srcs store).1.newFiles ∨
      b.filename ∈ (reconcile cf srcs store).1.conflictingFiles ∨
      b.filename ∈ (reconcile cf srcs store).1.errorFiles ∨
      ∃ d, findAsset (reconcile cf srcs store).2 b.filename = some d ∧
        digestOf d.bytes = digestOf b.bytes := by
  intro srcs
  induction srcs with
  | nil => intro store b hb; exact absurd hb (by simp)
  | cons src rest ih =>
    intro store b hb
    rcases List.mem_cons.mp hb with heq | hmem
    · subst heq
      cases hF : findAsset store b.filename with
      | none =>
        cases hcf : cf b.filename with
        | true =>
          simp only [reconcile, hF, hcf, if_true]
          exact Or.inr (Or.inr (Or.inl (List.mem_cons_self _ _)))
        | false =>
          simp only [reconcile, hF, hcf, Bool.false_eq_true, if_false]
          exact Or.inl (List.mem_cons_self _ _)
      | some dest =>
        by_cases hd : digestOf dest.bytes = digestOf b.bytes
        · simp only [reconcile, hF, if_pos hd]
          exact Or.inr (Or.inr (Or.inr
            ⟨dest, reconcile_store_some cf rest store b.filename dest hF, hd⟩))
        · simp only [reconcile, hF, if_neg hd]
          exact Or.inr (Or.inl (List.mem_cons_self _ _))
    · cases hF : findAsset store src.filename with
      | none =>
        cases hcf : cf src.filename with
        | true =>
          simp only [reconcile, hF, hcf, if_true]
          rcases ih store b hmem with h | h | h | h
          · exact Or.inl h
          · exact Or.inr (Or.inl h)
          · exact Or.inr (Or.inr (Or.inl (List.mem_cons_of_mem _ h)))
          · exact Or.inr (Or.inr (Or.inr h))
        | false =>
          simp only [reconcile, hF, hcf, Bool.false_eq_true, if_false]
          rcases ih (store ++ [src]) b hmem with h | h | h | h
          · exact Or.inl (List.mem_cons_of_mem _ h)
          · exact Or.inr (Or.inl h)
          · exact Or.inr (Or.inr (Or.inl h))
          · exact Or.inr (Or.inr (Or.inr h))
      | some dest =>
        by_cases hd : digestOf dest.bytes = digestOf src.bytes
        · simp only [reconcile, hF, if_pos hd]
          exact ih store b hmem
        · simp only [reconcile, hF, if_neg hd]
          rcases ih store b hmem with h | h | h | h
          · exact Or.inl h
          · exact Or.inr (Or.inl (List.mem_cons_of_mem _ h))
          · exact Or.inr (Or.inr (Or.inl h))
          · exact Or.inr (Or.inr (Or.inr h))

/-- C1: For every source asset reconciled during a paste (with pairwise
distinct source filenames, as the clipboard references a set of asset keys,
and no copy I/O failure), its filename is reported in `conflicting_files` if
and only if a destination record with the same filename exists and has a
different content digest; it is reported in `new_files` if and only if no
destination record with that filename exists; and if a destination record
exists with an equal digest, the filename appears in neither list. -/
theorem reconcile_notices_characterization
    (entry : ClipboardEntry) (st : CourseState) (nextId : Nat) (cf : String → Bool)
    (a : AssetRecord)
    (hnd : (entry.assets.map fun r => r.filename).Nodup)
    (ha : a ∈ entry.assets)
    (hnofail : ∀ s ∈ entry.assets, cf s.filename = false) :
    paste (some entry) st nextId cf = .ok (pasteOk entry st nextId cf) ∧
    (a.filename ∈ (pasteOk entry st nextId cf).result.notices.conflictingFiles ↔
      ∃ d, findAsset st.assetStore a.filename = some d ∧
        digestOf d.bytes ≠ digestOf a.bytes) ∧
    (a.filename ∈ (pasteOk entry st nextId cf).result.notices.newFiles ↔
      findAsset st.assetStore a.filename = none) ∧
    ∀ d, findAsset st.assetStore a.filename = some d →
      digestOf d.bytes = digestOf a.bytes →
      a.filename ∉ (pasteOk entry st nextId cf).result.notices.conflictingFiles ∧
      a.filename ∉ (pasteOk entry st nextId cf).result.notices.newFiles := by
  have hnotices : (pasteOk entry st nextId cf).result.notices
      = (reconcile cf entry.assets st.assetStore).1 := rfl
  refine ⟨rfl, ?_, ?_, ?_⟩
  · rw [hnotices]
    exact reconcile_mem_confFiles_iff cf entry.assets st.assetStore a hnd ha
  · rw [hnotices, reconcile_mem_newFiles_iff cf entry.assets st.assetStore a hnd ha]
    constructor
    · intro h
      exact h.1
    · intro h
      exact ⟨h, hnofail a ha⟩
  · intro d hd hdig
    rw [hnotices]
    constructor
    · intro hin
      obtain ⟨d2, hd2, hne⟩ :=
        (reconcile_mem_confFiles_iff cf entry.assets st.assetStore a hnd ha).mp hin
      rw [hd, Option.some.injEq] at hd2
      subst hd2
      exact hne hdig
    · intro hin
      have hnone :=
        ((reconcile_mem_newFiles_iff cf entry.assets st.assetStore a hnd ha).mp hin).1
      rw [hd] at hnone
      exact absurd hnone (by simp)

theorem reconcile_notices_characterization_witness :
    ((wEntry.assets.map fun r => r.filename).Nodup) ∧
    wAssetSrc ∈ wEntry.assets ∧
    (∀ s ∈ wEntry.assets, noFail s.filename = false) ∧
    (paste (some wEntry) wState 1 noFail = .ok (pasteOk wEntry wState 1 noFail) ∧
      (wAssetSrc.filename ∈ (pasteOk wEntry wState 1 noFail).result.notices.conflictingFiles ↔
        ∃ d, findAsset wState.assetStore wAssetSrc.filename = some d ∧
          digestOf d.bytes ≠ digestOf wAssetSrc.bytes) ∧
      (wAssetSrc.filename ∈ (pasteOk wEntry wState 1 noFail).result.notices.newFiles ↔
        findAsset wState.assetStore wAssetSrc.filename = none) ∧
      ∀ d, findAsset wState.assetStore wAssetSrc.filename = some d →
        digestOf d.bytes = digestOf wAssetSrc.bytes →
        wAssetSrc.filename ∉ (pasteOk wEntry wState 1 noFail).result.notices.conflictingFiles ∧
        wAssetSrc.filename ∉ (pasteOk wEntry wState 1 noFail).result.notices.newFiles) :=
  ⟨by decide, by decide, by decide,
    reconcile_notices_characterization wEntry wState 1 noFail wAssetSrc
      (by decide) (by decide) (by decide)⟩

/-- C2: For every source asset whose filename already exists in the
destination course with differing bytes (source filenames pairwise distinct),
the paste operation leaves the destination record (and hence its digest)
unchanged — the pre-existing record is still what lookup finds — and the
filename appears exactly once in `conflicting_files`. -/
theorem conflicting_asset_untouched
    (entry : ClipboardEntry) (st : CourseState) (nextId : Nat) (cf : String → Bool)
    (a d : AssetRecord)
    (hnd : (entry.assets.map fun r => r.filename).Nodup)
    (ha : a ∈ entry.assets)
    (hfound : findAsset st.assetStore a.filename = some d)
    (hbytes : d.bytes ≠ a.bytes) :
    paste (some entry) st nextId cf = .ok (pasteOk entry st nextId cf) ∧
    findAsset (pasteOk entry st nextId cf).state.assetStore a.filename = some d ∧
    List.count a.filename (pasteOk entry st nextId cf).result.notices.conflictingFiles = 1 := by
  have hdig : digestOf d.bytes ≠ digestOf a.bytes := fun h => hbytes (digestOf_inj _ _ h)
  have hstore : (pasteOk entry st nextId cf).state.assetStore
      = (reconcile cf entry.assets st.assetStore).2 := rfl
  have hnotices : (pasteOk entry st nextId cf).result.notices
      = (reconcile cf entry.assets st.assetStore).1 := rfl
  refine ⟨rfl, ?_, ?_⟩
  · rw [hstore]
    exact reconcile_store_some cf entry.assets st.assetStore a.filename d hfound
  · rw [hnotices]
    have hmem : a.filename ∈ (reconcile cf entry.assets st.assetStore).1.conflictingFiles :=
      (reconcile_mem_confFiles_iff cf entry.assets st.assetStore a hnd ha).mpr
        ⟨d, hfound, hdig⟩
    have hnodup : (reconcile cf entry.assets st.assetStore).1.conflictingFiles.Nodup :=
      List.Nodup.sublist (reconcile_conf_sublist cf entry.assets st.assetStore) hnd
    exact List.count_eq_one_of_mem hnodup hmem

theorem conflicting_asset_untouched_witness :
    ((wEntry.assets.map fun r => r.filename).Nodup) ∧
    wAssetSrc ∈ wEntry.assets ∧
    findAsset wState.assetStore wAssetSrc.filename = some wAssetDst ∧
    wAssetDst.bytes ≠ wAssetSrc.bytes ∧
    (paste (some wEntry) wState 1 noFail = .ok (pasteOk wEntry wState 1 noFail) ∧
      findAsset (pasteOk wEntry wState 1 noFail).state.assetStore wAssetSrc.filename
        = some wAssetDst ∧
      List.count wAssetSrc.filename
        (pasteOk wEntry wState 1 noFail).result.notices.conflictingFiles = 1) :=
  ⟨by decide, by decide, by decide, by decide,
    conflicting_asset_untouched wEntry wState 1 noFail wAssetSrc wAssetDst
      (by decide) (by decide) (by decide) (by decide)⟩

/-- C7: For every source asset whose copy operation raises an I/O error
during reconcile (the asset is absent from the destination, so a copy is
attempted, and the copy fails; source filenames pairwise distinct), the
filename is recorded in `error_files`, all remaining source assets are still
processed (every source asset is accounted for: its filename lands in one of
the three notice lists, or a record with an equal digest is found in the
final destination store), and the overall paste completes successfully
rather than aborting. -/
theorem asset_copy_error_nonfatal
    (entry : ClipboardEntry) (st : CourseState) (nextId : Nat) (cf : String → Bool)
    (a : AssetRecord)
    (hnd : (entry.assets.map fun r => r.filename).Nodup)
    (ha : a ∈ entry.assets)
    (hfail : cf a.filename = true)
    (habsent : findAsset st.assetStore a.filename = none) :
    paste (some entry) st nextId cf = .ok (pasteOk entry st nextId cf) ∧
    a.filename ∈ (pasteOk entry st nextId cf).result.notices.errorFiles ∧
    ∀ b ∈ entry.assets,
      b.filename ∈ (pasteOk entry st nextId cf).result.notices.newFiles ∨
      b.filename ∈ (pasteOk entry st nextId cf).result.notices.conflictingFiles ∨
      b.filename ∈ (pasteOk entry st nextId cf).result.notices.errorFiles ∨
      ∃ dr, findAsset (pasteOk entry st nextId cf).state.assetStore b.filename = some dr ∧
        digestOf dr.bytes = digestOf b.bytes := by
  have hnotices : (pasteOk entry st nextId cf).result.notices
      = (reconcile cf entry.assets st.assetStore).1 := rfl
  have hstore : (pasteOk entry st nextId cf).state.assetStore
      = (reconcile cf entry.assets st.assetStore).2 := rfl
  refine ⟨rfl, ?_, ?_⟩
  · rw [hnotices]
    exact (reconcile_mem_errFiles_iff cf entry.assets st.assetStore a hnd ha).mpr
      ⟨habsent, hfail⟩
  · intro b hb
    rw [hnotices, hstore]
    exact reconcile_total cf entry.assets st.assetStore b hb

theorem asset_copy_error_nonfatal_witness :
    ((wEntry.assets.map fun r => r.filename).Nodup) ∧
    wAssetSrc ∈ wEntry.assets ∧
    allFail wAssetSrc.filename = true ∧
    findAsset wStateEmpty.assetStore wAssetSrc.filename = none ∧
    (paste (some wEntry) wStateEmpty 1 allFail
        = .ok (pasteOk wEntry wStateEmpty 1 allFail) ∧
      wAssetSrc.filename ∈ (pasteOk wEntry wStateEmpty 1 allFail).result.notices.errorFiles ∧
      ∀ b ∈ wEntry.assets,
        b.filename ∈ (pasteOk wEntry wStateEmpty 1 allFail).result.notices.newFiles ∨
        b.filename ∈ (pasteOk wEntry wStateEmpty 1 allFail).result.notices.conflictingFiles ∨
        b.filename ∈ (pasteOk wEntry wStateEmpty 1 allFail).result.notices.errorFiles ∨
        ∃ dr, findAsset (pasteOk wEntry wStateEmpty 1 allFail).state.assetStore b.filename
            = some dr ∧
          digestOf dr.bytes = digestOf b.bytes) :=
  ⟨by decide, by decide, by decide, by decide,
    asset_copy_error_nonfatal wEntry wStateEmpty 1 allFail wAssetSrc
      (by decide) (by decide) (by decide) (by decide)⟩

/- ### Subtree regeneration lemmas -/

theorem sameShapeT_setCopiedFrom (t u : XBlockTree) (s : String) :
    sameShapeT t (setCopiedFrom u s) = sameShapeT t u := by
  cases t with
  | node i1 f1 c1 cs1 =>
    cases u with
    | node i2 f2 c2 cs2 => rfl

theorem allIdsT_setCopiedFrom (u : XBlockTree) (s : String) :
    allIdsT (setCopiedFrom u s) = allIdsT u := by
  cases u
  rfl

theorem childCount_setCopiedFrom (u : XBlockTree) (s : String) :
    childCount (setCopiedFrom u s) = childCount u := by
  cases u
  rfl

theorem regenForest_length (f : XBlockForest) (n : Nat) :
    forestLength (regenForest f n).1 = forestLength f := by
  cases f with
  | nil => rfl
  | cons t rest =>
    simp only [regenForest, forestLength]
    rw [regenForest_length rest (regenTree t n).2]

theorem childCount_regenTree (t : XBlockTree) (n : Nat) :
    childCount (regenTree t n).1 = childCount t := by
  cases t with
  | node i fields cf cs =>
    simp only [regenTree, childCount]
    exact regenForest_length cs (n + 1)

mutual

theorem regenTree_sameShape (t : XBlockTree) (n : Nat) :
    sameShapeT t (regenTree t n).1 = true := by
  cases t with
  | node i fields cf cs =>
    simp only [regenTree, sameShapeT, Bool.and_eq_true]
    exact ⟨beq_self_eq_true fields, regenForest_sameShape cs (n + 1)⟩

theorem regenForest_sameShape (f : XBlockForest) (n : Nat) :
    sameShapeF f (regenForest f n).1 = true := by
  cases f with
  | nil => rfl
  | cons t rest =>
    simp only [regenForest, sameShapeF, Bool.and_eq_true]
    exact ⟨regenTree_sameShape t n, regenForest_sameShape rest (regenTree t n).2⟩

end

mutual

theorem regenTree_counter_le (t : XBlockTree) (n : Nat) : n ≤ (regenTree t n).2 := by
  cases t with
  | node i fields cf cs =>
    simp only [regenTree]
    have h := regenForest_counter_le cs (n + 1)
    omega

theorem regenForest_counter_le (f : XBlockForest) (n : Nat) : n ≤ (regenForest f n).2 := by
  cases f with
  | nil => simp [regenForest]
  | cons t rest =>
    simp only [regenForest]
    have h1 := regenTree_counter_le t n
    have h2 := regenForest_counter_le rest (regenTree t n).2
    omega

end

mutual

theorem regenTree_ids_ge (t : XBlockTree) (n : Nat) :
    ∀ i ∈ allIdsT (regenTree t n).1, n ≤ i := by
  cases t with
  | node id0 fields cf cs =>
    intro i hi
    simp only [regenTree, allIdsT, List.mem_cons] at hi
    rcases hi with heq | hi
    · omega
    · have h := regenForest_ids_ge cs (n + 1) i hi
      omega

theorem regenForest_ids_ge (f : XBlockForest) (n : Nat) :
    ∀ i ∈ allIdsF (regenForest f n).1, n ≤ i := by
  cases f with
  | nil => intro i hi; simp [regenForest, allIdsF] at hi
  | cons t rest =>
    intro i hi
    simp only [regenForest, allIdsF, List.mem_append] at hi
    rcases hi with hi | hi
    · exact regenTree_ids_ge t n i hi
    · have h1 := regenTree_counter_le t n
      have h2 := regenForest_ids_ge rest (regenTree t n).2 i hi
      omega

end

/-- C6: For every staged subtree (whose node identifiers all lie below the
fresh-identifier counter), the pasted subtree preserves the source's shape
and field values: it has the same parent/child structure and equal
non-identity field values node for node (`sameShapeT`), the same child
count, and every node receives a freshly generated identifier distinct from
every source identifier (in particular from its own source identifier). -/
theorem paste_preserves_subtree
    (entry : ClipboardEntry) (st : CourseState) (nextId : Nat) (cf : String → Bool)
    (hfresh : ∀ i ∈ allIdsT entry.subtree, i < nextId) :
    paste (some entry) st nextId cf = .ok (pasteOk entry st nextId cf) ∧
    sameShapeT entry.subtree (pasteOk entry st nextId cf).newSubtree = true ∧
    childCount (pasteOk entry st nextId cf).newSubtree = childCount entry.subtree ∧
    ∀ i ∈ allIdsT (pasteOk entry st nextId cf).newSubtree, i ∉ allIdsT entry.subtree := by
  have hsub : (pasteOk entry st nextId cf).newSubtree
      = setCopiedFrom (regenTree entry.subtree nextId).1
          (Nat.repr (rootId entry.subtree)) := rfl
  refine ⟨rfl, ?_, ?_, ?_⟩
  · rw [hsub, sameShapeT_setCopiedFrom]
    exact regenTree_sameShape entry.subtree nextId
  · rw [hsub, childCount_setCopiedFrom, childCount_regenTree]
  · intro i hi hmem
    rw [hsub, allIdsT_setCopiedFrom] at hi
    have h1 := regenTree_ids_ge entry.subtree nextId i hi
    have h2 := hfresh i hmem
    omega

theorem paste_preserves_subtree_witness :
    (∀ i ∈ allIdsT wEntry.subtree, i < 1) ∧
    (paste (some wEntry) wState 1 noFail = .ok (pasteOk wEntry wState 1 noFail) ∧
      sameShapeT wEntry.subtree (pasteOk wEntry wState 1 noFail).newSubtree = true ∧
      childCount (pasteOk wEntry wState 1 noFail).newSubtree = childCount wEntry.subtree ∧
      ∀ i ∈ allIdsT (pasteOk wEntry wState 1 noFail).newSubtree,
        i ∉ allIdsT wEntry.subtree) :=
  ⟨by decide, paste_preserves_subtree wEntry wState 1 noFail (by decide)⟩
